import Mathlib

/-!
Verification of the `unison` GUI toolkit's core logic against its
natural-language specification.

This file shallowly embeds, from the Go sources:
 * the `Field` text-editing engine (rune buffer + selection model,
   mutation operations, paste sanitization, line-break scans);
 * the dock-header tab packing algorithm (`dockHeader.PerformLayout`);
 * the SVG path/gradient paint translation (`Path.setPaintPattern`,
   `Path.gradientPoint`).

Go `float32` arithmetic is modelled with exact rationals (`ℚ`); machine
`int` with unbounded `Int` (Go selection indices stay far below 2^63 in
every scenario considered here); Go `[]rune` with `List Char` (Go runes
entering the buffer come from UTF-8 strings, hence are valid unicode
scalar values, exactly Lean `Char`).
-/

namespace Unison

/-! ## The Field model (src/unnamed/part_004)

The embedded state keeps the fields of Go's `Field` struct that the
editing logic reads or writes: the rune buffer, the selection triple and
the `multiLine` flag.  Purely visual state (scroll offset, cursor blink,
cached display lines, undo ids) does not influence the buffer/selection
values computed by the operations modelled below and is omitted.
-/

structure Field where
  runes : List Char
  selectionStart : Int
  selectionEnd : Int
  selectionAnchor : Int
  multiLine : Bool
deriving Repr, DecidableEq

/-- `FieldState` from the source: the undo snapshot of text + selection.
Go's `Text string` is carried as the rune list (`string(runes)` /
`[]rune(text)` round-trip the scalar values unchanged). -/
structure FieldState where
  Text : List Char
  SelectionStart : Int
  SelectionEnd : Int
  SelectionAnchor : Int
deriving Repr, DecidableEq

/-- `NewField` / `NewMultiLineField`: empty buffer, selection `(0,0,0)`. -/
def newFieldModel (multiLine : Bool) : Field :=
  { runes := [], selectionStart := 0, selectionEnd := 0, selectionAnchor := 0,
    multiLine := multiLine }

/-- Go's `unicode.IsControl`: the Unicode `Cc` category,
`U+0000..U+001F` and `U+007F..U+009F`. -/
def goIsControl (c : Char) : Bool :=
  c.toNat < 0x20 || (0x7F ≤ c.toNat && c.toNat ≤ 0x9F)

/-- `Field.HasSelectionRange`. -/
def Field.hasSelectionRange (f : Field) : Bool :=
  f.selectionStart < f.selectionEnd

/-- The clamp sequence at the top of `Field.setSelection`: `start` to
`[0, length]`, `end` to `[start, length]`, `anchor` to `[start, end]`. -/
def clampTriple (length start e anchor : Int) : Int × Int × Int :=
  let start := if start < 0 then 0 else if start > length then length else start
  let e := if e < start then start else if e > length then length else e
  let anchor := if anchor < start then start else if anchor > e then e else anchor
  (start, e, anchor)

/-- `Field.setSelection`: clamps the triple and skips the update (with
its redraw side effects) when the stored triple already equals the
clamped one. -/
def Field.setSelection (f : Field) (start e anchor : Int) : Field :=
  let t := clampTriple f.runes.length start e anchor
  if f.selectionStart = t.1 ∧ f.selectionEnd = t.2.1 ∧ f.selectionAnchor = t.2.2 then f
  else { f with selectionStart := t.1, selectionEnd := t.2.1, selectionAnchor := t.2.2 }

/-- `Field.SetSelection(start, end)` = `setSelection(start, end, start)`. -/
def Field.setSelectionPublic (f : Field) (start e : Int) : Field :=
  f.setSelection start e start

/-- `Field.SetSelectionTo(pos)`. -/
def Field.setSelectionTo (f : Field) (pos : Int) : Field :=
  f.setSelectionPublic pos pos

/-- `math.MaxInt64`, used by `SetSelectionToEnd`. -/
def maxInt64 : Int := 9223372036854775807

/-- `Field.SetSelectionToEnd`. -/
def Field.setSelectionToEnd (f : Field) : Field :=
  f.setSelectionPublic maxInt64 maxInt64

/-- `Field.SetSelectionToStart`. -/
def Field.setSelectionToStart (f : Field) : Field :=
  f.setSelectionPublic 0 0

/-- `Field.sanitize`: multi-line fields keep the input unchanged;
single-line fields drop `'\n'` and `'\r'` (and nothing else). -/
def Field.sanitize (f : Field) (runes : List Char) : List Char :=
  if f.multiLine then runes
  else runes.filter (fun ch => ch ≠ '\n' && ch ≠ '\r')

/-- `Field.GetFieldState`. -/
def Field.getFieldState (f : Field) : FieldState :=
  { Text := f.runes, SelectionStart := f.selectionStart,
    SelectionEnd := f.selectionEnd, SelectionAnchor := f.selectionAnchor }

/-- `Field.ApplyFieldState`. -/
def Field.applyFieldState (f : Field) (state : FieldState) : Field :=
  let runes := f.sanitize state.Text
  let f := if runes = f.runes then f else { f with runes := runes }
  f.setSelection state.SelectionStart state.SelectionEnd state.SelectionAnchor

/-- `Field.DefaultRuneTyped`: control runes (except `'\n'` in multi-line
fields) are rejected; otherwise the rune replaces the selection range (or
is inserted at the caret) and the caret advances past it. -/
def Field.defaultRuneTyped (f : Field) (ch : Char) : Field :=
  if goIsControl ch && (!f.multiLine || ch ≠ '\n') then f
  else
    let f :=
      if f.hasSelectionRange then
        { f with runes := f.runes.take f.selectionStart.toNat ++
                          f.runes.drop f.selectionEnd.toNat }
      else f
    let f := { f with runes := f.runes.take f.selectionStart.toNat ++
                               [ch] ++ f.runes.drop f.selectionStart.toNat }
    f.setSelectionTo (f.selectionStart + 1)

/-- `Field.CanDelete`. -/
def Field.canDelete (f : Field) : Bool :=
  f.hasSelectionRange || f.selectionStart > 0

/-- `Field.Delete`: removes the selection range, or the rune before the
caret. -/
def Field.delete (f : Field) : Field :=
  if f.canDelete then
    if f.hasSelectionRange then
      let f := { f with runes := f.runes.take f.selectionStart.toNat ++
                                 f.runes.drop f.selectionEnd.toNat }
      f.setSelectionTo f.selectionStart
    else
      let f := { f with runes := f.runes.take (f.selectionStart - 1).toNat ++
                                 f.runes.drop f.selectionStart.toNat }
      f.setSelectionTo (f.selectionStart - 1)
  else f

/-- `Field.Paste`, with the clipboard contents passed explicitly (the
clipboard is an external service).  Non-empty clipboard text is
sanitized, replaces the selection range and the caret lands after the
inserted runes; an empty clipboard with an active selection range falls
back to `Delete`. -/
def Field.paste (f : Field) (clip : List Char) : Field :=
  if clip ≠ [] then
    let runes := f.sanitize clip
    let f :=
      if f.hasSelectionRange then
        { f with runes := f.runes.take f.selectionStart.toNat ++
                          f.runes.drop f.selectionEnd.toNat }
      else f
    let f := { f with runes := f.runes.take f.selectionStart.toNat ++
                               runes ++ f.runes.drop f.selectionStart.toNat }
    f.setSelectionTo (f.selectionStart + runes.length)
  else if f.hasSelectionRange then f.delete
  else f

/-- `Field.Cut`: copies the selection to the clipboard and deletes it.
Only the field state is modelled; the clipboard write is external. -/
def Field.cut (f : Field) : Field :=
  if f.hasSelectionRange then f.delete else f

/-- `Field.SetText`. -/
def Field.setText (f : Field) (text : List Char) : Field :=
  let runes := f.sanitize text
  if runes ≠ f.runes then
    let f := { f with runes := runes }
    f.setSelectionToEnd
  else f

/-- `Field.SelectAll`. -/
def Field.selectAll (f : Field) : Field :=
  f.setSelectionPublic 0 f.runes.length

/-- The `KeyDelete` branch of `Field.DefaultKeyDown` without a selection
range: removes the rune at the caret, leaving the selection indices
untouched. -/
def Field.keyDeleteForward (f : Field) : Field :=
  if f.hasSelectionRange then f.delete
  else if f.selectionStart < (f.runes.length : Int) then
    { f with runes := f.runes.take f.selectionStart.toNat ++
                      f.runes.drop (f.selectionStart + 1).toNat }
  else f

/-- The mutation operations of the `Field`.  All mouse and keyboard
selection movements (`DefaultMouseDown`, `DefaultMouseDrag`,
`handleHome/End/Arrow*`) funnel their computed indices into
`setSelection`, so they are covered by `selChange` with arbitrary
arguments. -/
inductive Mutation where
  | runeTyped (ch : Char)
  | backspace
  | keyDelete
  | paste (clip : List Char)
  | cut
  | setText (text : List Char)
  | applyState (st : FieldState)
  | selChange (start e anchor : Int)
  | selectAll
deriving Repr, DecidableEq

/-- Apply one mutation operation to the field. -/
def applyMutation (m : Mutation) (f : Field) : Field :=
  match m with
  | .runeTyped ch => f.defaultRuneTyped ch
  | .backspace => f.delete
  | .keyDelete => f.keyDeleteForward
  | .paste clip => f.paste clip
  | .cut => f.cut
  | .setText text => f.setText text
  | .applyState st => f.applyFieldState st
  | .selChange s e a => f.setSelection s e a
  | .selectAll => f.selectAll

/-- The selection invariant of the specification:
`0 ≤ start ≤ end ≤ len(runes)` and `start ≤ anchor ≤ end`. -/
def SelValid (f : Field) : Prop :=
  0 ≤ f.selectionStart ∧ f.selectionStart ≤ f.selectionEnd ∧
    f.selectionEnd ≤ (f.runes.length : Int) ∧
    f.selectionStart ≤ f.selectionAnchor ∧ f.selectionAnchor ≤ f.selectionEnd

instance (f : Field) : Decidable (SelValid f) := by
  unfold SelValid; infer_instance

/-- A single-line field's buffer never holds `'\n'` or `'\r'` (multi-line
buffers are unconstrained); equivalently, `sanitize` fixes the buffer. -/
def Sanitized (f : Field) : Prop :=
  f.sanitize f.runes = f.runes

instance (f : Field) : Decidable (Sanitized f) := by
  unfold Sanitized; infer_instance

/-- Field states reachable from a freshly created (single- or
multi-line) field through the public mutation operations. -/
inductive Reachable : Field → Prop
  | base (multiLine : Bool) : Reachable (newFieldModel multiLine)
  | step (m : Mutation) {f : Field} : Reachable f → Reachable (applyMutation m f)

/-! ## Line layout and line-break scans (src/unnamed/part_004)

`buildLines` is embedded for the un-wrapped layout (`wrap = false`, or a
non-positive wrap width), which is the layout the line-break claim
stipulates.  `BreakToWidth` (the wrapped case) is a text-measurement
collaborator and is outside the embedded subset.  Obscurement replaces
runes one-for-one and never changes line lengths, so it is immaterial to
the index arithmetic modelled here. -/

/-- `Field.buildLines` without wrapping: a multi-line buffer is split on
`'\n'` and every produced line is tagged `endsWithLineFeed = true`; a
single-line buffer is one line tagged `false`; an empty buffer produces
no lines. -/
def Field.buildLinesModel (f : Field) : List (List Char) × List Bool :=
  if f.runes.length ≠ 0 then
    if f.multiLine then
      let segs := f.runes.splitOn '\n'
      (segs, segs.map (fun _ => true))
    else ([f.runes], [false])
  else ([], [])

/-- The scan loop of `Field.lineIndexForPos`: walk the laid-out lines,
counting one extra rune position for each line that ends with a line
feed; returns `(index, startPos)` of the line owning `pos`. -/
def lineIndexScan (pos : Int) :
    List (List Char × Bool) → Nat → Int → Int → Nat × Int
  | [], i, start, lastLen => (i - 1, start - lastLen)
  | (line, lf) :: rest, i, start, _ =>
    let length : Int := (line.length : Int) + (if lf then 1 else 0)
    if pos < start + length then (i, start)
    else lineIndexScan pos rest (i + 1) (start + length) length

/-- `Field.lineIndexForPos`. -/
def Field.lineIndexForPos (f : Field) (pos : Int) : Nat × Int :=
  if pos < 0 then (0, 0)
  else
    let (lines, ends) := f.buildLinesModel
    lineIndexScan pos (lines.zip ends) 0 0 0

/-- `Field.findPrevLineBreak`. -/
def Field.findPrevLineBreak (f : Field) (pos : Int) : Int :=
  let pos := if pos ≥ (f.runes.length : Int) then (f.runes.length : Int) - 1
             else pos - 1
  let r := f.lineIndexForPos pos
  max (r.2 - 1) 0

/-- `Field.findNextLineBreak`.  (Go indexes `f.lines[index]` directly and
would panic on an empty layout; the model totalises that lookup with
`getD`, which no claim exercises.) -/
def Field.findNextLineBreak (f : Field) (pos : Int) : Int :=
  let pos := if pos < 0 then 0 else pos + 1
  let r := f.lineIndexForPos pos
  let lines := f.buildLinesModel.1
  let ends := f.buildLinesModel.2
  let start := r.2 + ((lines.getD r.1 []).length : Int)
  let start := if f.multiLine && !(ends.getD r.1 false) then start - 1 else start
  min start (f.runes.length : Int)

/-! ## The dock-header tab packer (src/path2.go, `dockHeader.PerformLayout`)

The packer's width bookkeeping is embedded over exact rationals.  The
external inputs measured from widgets (`Sizes`) become explicit
parameters: each tab's preferred width, each non-overflow button's
width, and the overflow button's measured width as a function of the
hidden-tab count shown in its label (its `Text` is rewritten and it is
re-measured inside the hide loop). -/

structure DockLayoutInput where
  /-- `ContentRect(false).Width`. -/
  contentWidth : ℚ
  /-- preferred widths of the tabs, in order (`dt.Sizes`). -/
  tabPrefWidths : List ℚ
  /-- widths of the non-overflow buttons (`b.Sizes`). -/
  otherButtonWidths : List ℚ
  /-- measured width of the overflow button before its label is rewritten. -/
  overflowWidth0 : ℚ
  /-- measured width of the overflow button once its label shows `n` hidden tabs. -/
  overflowWidth : Nat → ℚ
  /-- `d.owner.CurrentDockableIndex()`. -/
  current : Int
  /-- `d.MinimumTabWidth`. -/
  minTabWidth : ℚ
  /-- `d.TabGap`. -/
  tabGap : ℚ

/-- The produced layout: final tab widths, the hidden-tab indices (in
the order the hide loop hides them, i.e. from the end of the tab list
backward), and the overflow button's visibility and label.  The label is
`none` when the hide loop never ran (Go leaves the stale text on the
then-hidden button). -/
structure PackResult where
  tabWidths : List ℚ
  hidden : List Nat
  overflowVisible : Bool
  overflowLabel : Option String
deriving Repr, DecidableEq

/-- One pass of the shrink loop over the tabs (`for i := range tabs`):
each non-current tab wider than the minimum gives up `perTab` (clamped
at the minimum, refunding the over-shrink), and the pass stops early
once `remaining ≤ 0`.  Arguments after the width list: the index of its
head, `remaining`, `found`.  Returns the new widths, `remaining` and
`found`. -/
def shrinkPass (minW perTab : ℚ) (current : Int) :
    List ℚ → Nat → ℚ → Bool → List ℚ × ℚ × Bool
  | [], _, rem, found => ([], rem, found)
  | w :: ws, i, rem, found =>
    if (i : Int) ≠ current ∧ minW < w then
      -- `remaining -= perTab; width -= perTab;` then, when the width fell
      -- below the minimum, refund the over-shrink and clamp.
      if w - perTab < minW then
        if rem - perTab + (minW - (w - perTab)) ≤ 0 then
          (minW :: ws, rem - perTab + (minW - (w - perTab)), true)
        else
          let r := shrinkPass minW perTab current ws (i + 1)
            (rem - perTab + (minW - (w - perTab))) true
          (minW :: r.1, r.2.1, r.2.2)
      else
        if rem - perTab ≤ 0 then ((w - perTab) :: ws, rem - perTab, true)
        else
          let r := shrinkPass minW perTab current ws (i + 1) (rem - perTab) true
          ((w - perTab) :: r.1, r.2.1, r.2.2)
    else
      if rem ≤ 0 then (w :: ws, rem, found)
      else
        let r := shrinkPass minW perTab current ws (i + 1) rem found
        (w :: r.1, r.2.1, r.2.2)

/-- Number of tabs that can still shrink (`fatTabs` in the source):
non-current tabs strictly wider than the minimum, counting from list
index `i`. -/
def fatCountFrom (minW : ℚ) (current : Int) : Nat → List ℚ → Nat
  | _, [] => 0
  | i, w :: ws =>
    (if (i : Int) ≠ current ∧ minW < w then 1 else 0) +
      fatCountFrom minW current (i + 1) ws

/-- Total shrinkable width among non-current tabs from index `i`
(termination measure component for the shrink loop). -/
def slackFrom (minW : ℚ) (current : Int) : Nat → List ℚ → ℚ
  | _, [] => 0
  | i, w :: ws =>
    (if (i : Int) ≠ current then max (w - minW) 0 else 0) +
      slackFrom minW current (i + 1) ws

/-- Termination measure of the shrink loop. -/
def shrinkMeasure (minW : ℚ) (current : Int) (ws : List ℚ) : Nat :=
  (⌈slackFrom minW current 0 ws⌉).toNat + fatCountFrom minW current 0 ws

theorem slackFrom_nonneg (minW : ℚ) (current : Int) :
    ∀ (ws : List ℚ) (i : Nat), 0 ≤ slackFrom minW current i ws := by
  intro ws
  induction ws with
  | nil => intro i; simp [slackFrom]
  | cons w ws ih =>
    intro i
    simp only [slackFrom]
    have h1 := ih (i + 1)
    have h2 : (0 : ℚ) ≤ if (i : Int) ≠ current then max (w - minW) 0 else 0 := by
      split
      · exact le_max_right _ _
      · exact le_refl 0
    linarith

theorem shrinkPass_length (minW perTab : ℚ) (current : Int) :
    ∀ (ws : List ℚ) (i : Nat) (rem : ℚ) (found : Bool),
      (shrinkPass minW perTab current ws i rem found).1.length = ws.length := by
  intro ws
  induction ws with
  | nil => intro i rem found; simp [shrinkPass]
  | cons w ws ih =>
    intro i rem found
    simp only [shrinkPass]
    split_ifs <;> simp [ih]

theorem shrinkPass_min_le (minW perTab : ℚ) (current : Int) :
    ∀ (ws : List ℚ) (i : Nat) (rem : ℚ) (found : Bool),
      (∀ w ∈ ws, minW ≤ w) →
      ∀ w ∈ (shrinkPass minW perTab current ws i rem found).1, minW ≤ w := by
  intro ws
  induction ws with
  | nil => intro i rem found h; simp [shrinkPass]
  | cons w ws ih =>
    intro i rem found h
    have hhead : minW ≤ w := h w (List.mem_cons_self w ws)
    have htail : ∀ x ∈ ws, minW ≤ x := fun x hx => h x (List.mem_cons_of_mem w hx)
    simp only [shrinkPass]
    split_ifs with hc hcl hbr hbr hbr <;> intro x hx <;>
      simp only [List.mem_cons] at hx
    · rcases hx with h1 | h1
      · subst h1; exact le_refl _
      · exact htail x h1
    · rcases hx with h1 | h1
      · subst h1; exact le_refl _
      · exact ih (i + 1) _ true htail x h1
    · rcases hx with h1 | h1
      · subst h1; linarith [not_lt.mp hcl]
      · exact htail x h1
    · rcases hx with h1 | h1
      · subst h1; linarith [not_lt.mp hcl]
      · exact ih (i + 1) _ true htail x h1
    · rcases hx with h1 | h1
      · subst h1; exact hhead
      · exact htail x h1
    · rcases hx with h1 | h1
      · subst h1; exact hhead
      · exact ih (i + 1) rem found htail x h1

/-- The decrease facts about one completed shrink pass (completed:
`remaining` still positive at the end, so no early break fired): the
slack and the shrinkable-tab count never grow, and when a shrinkable tab
existed, either one became unshrinkable or the total slack dropped by
`perTab` per shrinkable tab. -/
theorem shrinkPass_spec (minW perTab : ℚ) (current : Int) (hpt : 1 ≤ perTab) :
    ∀ (ws : List ℚ) (i : Nat) (rem : ℚ) (found : Bool),
      0 < (shrinkPass minW perTab current ws i rem found).2.1 →
      slackFrom minW current i (shrinkPass minW perTab current ws i rem found).1 ≤
          slackFrom minW current i ws ∧
        fatCountFrom minW current i (shrinkPass minW perTab current ws i rem found).1 ≤
          fatCountFrom minW current i ws ∧
        (0 < fatCountFrom minW current i ws →
          fatCountFrom minW current i (shrinkPass minW perTab current ws i rem found).1 <
              fatCountFrom minW current i ws ∨
            slackFrom minW current i (shrinkPass minW perTab current ws i rem found).1 ≤
              slackFrom minW current i ws -
                perTab * (fatCountFrom minW current i ws : ℚ)) := by
  intro ws
  induction ws with
  | nil =>
    intro i rem found h
    simp [shrinkPass, slackFrom, fatCountFrom]
  | cons w ws ih =>
    intro i rem found h
    simp only [shrinkPass] at h ⊢
    by_cases hc : (i : Int) ≠ current ∧ minW < w
    · rw [if_pos hc] at h ⊢
      have hslackhead : (if (i : Int) ≠ current then max (w - minW) 0 else 0) = w - minW := by
        rw [if_pos hc.1, max_eq_left (by linarith [hc.2])]
      by_cases hcl : w - perTab < minW
      · -- the head clamps to the minimum width
        rw [if_pos hcl] at h ⊢
        by_cases hbr : rem - perTab + (minW - (w - perTab)) ≤ 0
        · rw [if_pos hbr] at h
          simp only at h
          linarith
        · rw [if_neg hbr] at h ⊢
          simp only at h ⊢
          obtain ⟨ihA, ihB, _⟩ := ih (i + 1) (rem - perTab + (minW - (w - perTab))) true h
          have hminslack : (if (i : Int) ≠ current then max (minW - minW) 0 else 0) = 0 := by
            split <;> simp
          have hminfat : ¬((i : Int) ≠ current ∧ minW < minW) := by
            rintro ⟨_, hlt⟩; exact lt_irrefl _ hlt
          refine ⟨?_, ?_, ?_⟩
          · simp only [slackFrom, hminslack, hslackhead]
            linarith [hc.2]
          · simp only [fatCountFrom, if_pos hc, if_neg hminfat]
            omega
          · intro _
            left
            simp only [fatCountFrom, if_pos hc, if_neg hminfat]
            omega
      · -- no clamp: the head sheds exactly perTab
        rw [if_neg hcl] at h ⊢
        by_cases hbr : rem - perTab ≤ 0
        · rw [if_pos hbr] at h
          simp only at h
          linarith
        · rw [if_neg hbr] at h ⊢
          simp only at h ⊢
          obtain ⟨ihA, ihB, ihC⟩ := ih (i + 1) (rem - perTab) true h
          have hslackhead2 :
              (if (i : Int) ≠ current then max (w - perTab - minW) 0 else 0) =
                w - perTab - minW := by
            rw [if_pos hc.1, max_eq_left (by linarith [not_lt.mp hcl])]
          by_cases hfat2 : minW < w - perTab
          · -- the head stays shrinkable
            have hfathead : ((i : Int) ≠ current ∧ minW < w - perTab) := ⟨hc.1, hfat2⟩
            refine ⟨?_, ?_, ?_⟩
            · simp only [slackFrom, hslackhead2, hslackhead]
              linarith
            · simp only [fatCountFrom, if_pos hc, if_pos hfathead]
              omega
            · intro _
              by_cases htf : 0 < fatCountFrom minW current (i + 1) ws
              · rcases ihC htf with h1 | h1
                · left
                  simp only [fatCountFrom, if_pos hc, if_pos hfathead]
                  omega
                · right
                  simp only [fatCountFrom, if_pos hc, if_pos hfathead,
                    slackFrom, hslackhead2, hslackhead]
                  push_cast
                  linarith
              · -- the tail has no shrinkable tab: only the head sheds width
                right
                have htf0 : fatCountFrom minW current (i + 1) ws = 0 := by omega
                simp only [fatCountFrom, if_pos hc, slackFrom, hslackhead2, hslackhead, htf0]
                push_cast
                linarith
          · -- the head lands exactly on the minimum: it leaves the shrinkable set
            have hfathead : ¬((i : Int) ≠ current ∧ minW < w - perTab) := by
              rintro ⟨_, hlt⟩; exact hfat2 hlt
            refine ⟨?_, ?_, ?_⟩
            · simp only [slackFrom, hslackhead2, hslackhead]
              linarith [hc.2]
            · simp only [fatCountFrom, if_pos hc, if_neg hfathead]
              omega
            · intro _
              left
              simp only [fatCountFrom, if_pos hc, if_neg hfathead]
              omega
    · -- the head is the current tab or already at minimum: untouched
      rw [if_neg hc] at h ⊢
      have hslackhead : (if (i : Int) ≠ current then max (w - minW) 0 else 0) = 0 := by
        split
        · next hcur =>
          have : w ≤ minW := by
            by_contra hgt
            exact hc ⟨hcur, not_le.mp hgt⟩
          simp [max_eq_right (by linarith : w - minW ≤ 0)]
        · rfl
      by_cases hbr : rem ≤ 0
      · rw [if_pos hbr] at h
        simp only at h
        linarith
      · rw [if_neg hbr] at h ⊢
        simp only at h ⊢
        obtain ⟨ihA, ihB, ihC⟩ := ih (i + 1) rem found h
        refine ⟨?_, ?_, ?_⟩
        · simp only [slackFrom, hslackhead]
          linarith
        · simp only [fatCountFrom, if_neg hc]
          omega
        · intro hfat
          simp only [fatCountFrom, if_neg hc] at hfat ⊢
          simp only [zero_add] at hfat ⊢
          rcases ihC hfat with h1 | h1
          · left; exact h1
          · right
            simp only [slackFrom, hslackhead, zero_add]
            exact h1

/-- The shrink loop (`for found && remaining > 0`): recompute the
shrinkable-tab count, run one fair-share pass with
`perTab = max(remaining/fatTabs, 1)`, and repeat while a tab was shrunk
and width is still missing. -/
def shrinkLoop (minW : ℚ) (current : Int) (ws : List ℚ) (rem : ℚ) : List ℚ × ℚ :=
  if h0 : 0 < rem then
    if hf : fatCountFrom minW current 0 ws = 0 then (ws, rem)
    else
      let perTab := max (rem / (fatCountFrom minW current 0 ws : ℚ)) 1
      let r := shrinkPass minW perTab current ws 0 rem false
      if hr : r.2.2 = true ∧ 0 < r.2.1 then shrinkLoop minW current r.1 r.2.1
      else (r.1, r.2.1)
  else (ws, rem)
termination_by shrinkMeasure minW current ws
decreasing_by
  simp only [shrinkMeasure]
  have hpt : 1 ≤ max (rem / (fatCountFrom minW current 0 ws : ℚ)) 1 := le_max_right _ 1
  obtain ⟨hA, hB, hC⟩ := shrinkPass_spec minW _ current hpt ws 0 rem false hr.2
  have hfat1 : 0 < fatCountFrom minW current 0 ws := Nat.pos_of_ne_zero hf
  rcases hC hfat1 with h1 | h1
  · have hceil : ⌈slackFrom minW current 0 (shrinkPass minW
        (max (rem / (fatCountFrom minW current 0 ws : ℚ)) 1) current ws 0 rem false).1⌉ ≤
        ⌈slackFrom minW current 0 ws⌉ := Int.ceil_le_ceil hA
    omega
  · have hfq : (1 : ℚ) ≤ (fatCountFrom minW current 0 ws : ℚ) := by
      exact_mod_cast hfat1
    have hprod : (1 : ℚ) ≤ max (rem / (fatCountFrom minW current 0 ws : ℚ)) 1 *
        (fatCountFrom minW current 0 ws : ℚ) := by nlinarith
    have hle : slackFrom minW current 0 (shrinkPass minW
        (max (rem / (fatCountFrom minW current 0 ws : ℚ)) 1) current ws 0 rem false).1 ≤
        slackFrom minW current 0 ws - 1 := by linarith
    have hceil : ⌈slackFrom minW current 0 (shrinkPass minW
        (max (rem / (fatCountFrom minW current 0 ws : ℚ)) 1) current ws 0 rem false).1⌉ ≤
        ⌈slackFrom minW current 0 ws⌉ - 1 := by
      calc ⌈slackFrom minW current 0 (shrinkPass minW
            (max (rem / (fatCountFrom minW current 0 ws : ℚ)) 1) current ws 0 rem false).1⌉ ≤
            ⌈slackFrom minW current 0 ws - 1⌉ := Int.ceil_le_ceil hle
        _ = ⌈slackFrom minW current 0 ws⌉ - 1 := Int.ceil_sub_one _
    have hnn : 0 ≤ ⌈slackFrom minW current 0 (shrinkPass minW
        (max (rem / (fatCountFrom minW current 0 ws : ℚ)) 1) current ws 0 rem false).1⌉ :=
      Int.ceil_nonneg (slackFrom_nonneg _ _ _ _)
    omega

/-- The hide loop: walk the tab indices from the end of the list
backward while width is still missing, skipping the current tab; each
hidden tab trades the old overflow-button width for the re-measured one
and releases its own width plus one gap.  State: remaining indices,
hidden-so-far, current overflow-button width, `remaining`. -/
def hideLoop (ovW : Nat → ℚ) (gap : ℚ) (current : Int) (tabW : List ℚ) :
    List Nat → List Nat → ℚ → ℚ → List Nat × ℚ × ℚ
  | [], hidden, curOvW, rem => (hidden, curOvW, rem)
  | i :: rest, hidden, curOvW, rem =>
    if 0 < rem then
      if (i : Int) = current then hideLoop ovW gap current tabW rest hidden curOvW rem
      else
        let hidden2 := hidden ++ [i]
        let newOvW := ovW hidden2.length
        hideLoop ovW gap current tabW rest hidden2 newOvW
          (rem - curOvW + newOvW - (tabW.getD i 0 + gap))
    else (hidden, curOvW, rem)

/-- `dockHeader.PerformLayout`, reduced to the width/visibility
computation it performs (frame positioning is pixel bookkeeping over the
same data).  Go indexes `tabSizes[current]` in the final force-shrink
and would panic on an out-of-range current index; the model's
`List.set`/`getD` are simply identity/default there. -/
def packTabs (inp : DockLayoutInput) : PackResult :=
  let tabW := inp.tabPrefWidths.map (fun w => max w inp.minTabWidth)
  let n := tabW.length
  let nButtons := inp.otherButtonWidths.length + 1
  let extra := inp.contentWidth - tabW.sum - inp.otherButtonWidths.sum -
    (((n : Int) + (nButtons : Int) - 2 : Int) : ℚ) * inp.tabGap
  if extra < 0 then
    let r1 := shrinkLoop inp.minTabWidth inp.current tabW (-extra)
    if 0 < r1.2 then
      let r2 :=
        if 1 < n then
          hideLoop inp.overflowWidth inp.tabGap inp.current r1.1
            ((List.range n).reverse) [] inp.overflowWidth0
            (r1.2 + inp.overflowWidth0 + inp.tabGap)
        else ([], inp.overflowWidth0, r1.2)
      let tabW2 :=
        if 0 < r2.2.2 then
          r1.1.set inp.current.toNat
            (max ((r1.1.getD inp.current.toNat 0) - r2.2.2) inp.minTabWidth)
        else r1.1
      { tabWidths := tabW2, hidden := r2.1,
        overflowVisible := r2.1.length ≠ 0,
        overflowLabel := if r2.1.length = 0 then none
                         else some ("»" ++ toString r2.1.length) }
    else
      { tabWidths := r1.1, hidden := [], overflowVisible := false,
        overflowLabel := none }
  else
    { tabWidths := tabW, hidden := [], overflowVisible := false,
      overflowLabel := none }

/-! ## SVG paint translation (src/path.go)

`Path.setPaintPattern` is embedded over exact rationals.  The path's
bounding box (computed by the native backend from the replayed
geometry) is an explicit input.  Gradient stop colors go through a
byte-level conversion that no claim touches; the stops are carried
through unconverted. -/

/-- A rectangle, `geom.Rect[float32]` over exact rationals. -/
structure RectQ where
  x : ℚ
  y : ℚ
  width : ℚ
  height : ℚ
deriving Repr, DecidableEq

/-- `svg.Gradient.Units`. -/
inductive GradientUnits where
  | objectBoundingBox
  | userSpaceOnUse
deriving Repr, DecidableEq

/-- `svg.Linear` / `svg.Radial` gradient direction data. -/
inductive GradientDirection where
  | linear (x1 y1 x2 y2 : ℚ)
  | radial (cx cy fx fy r fr : ℚ)
deriving Repr, DecidableEq

/-- `svg.SpreadMethod`, already mapped through `gradientSpreads`. -/
inductive TileModeQ where
  | clamp
  | mirror
  | repeatTile
deriving Repr, DecidableEq

/-- A gradient stop: `(Offset, StopColor, Opacity)`; the color is an
RGBA quadruple of bytes. -/
structure GradientStop where
  offset : ℚ
  r : Nat
  g : Nat
  b : Nat
  a : Nat
  opacity : ℚ
deriving Repr, DecidableEq

/-- `svg.Gradient`. -/
structure SvgGradient where
  units : GradientUnits
  direction : GradientDirection
  stops : List GradientStop
  spread : TileModeQ
deriving Repr, DecidableEq

/-- `svg.Pattern`: a plain color or a gradient. -/
inductive SvgPattern where
  | plain (r g b a : Nat)
  | gradient (g : SvgGradient)
deriving Repr, DecidableEq

/-- The color a paint ends up with: `Black`, or a plain color scaled by
the style opacity (the byte-level `NRGBA` packing is not modelled). -/
inductive PaintColor where
  | black
  | plain (r g b a : Nat) (opacity : ℚ)
deriving Repr, DecidableEq

/-- The shader a paint ends up with. -/
inductive ShaderDesc where
  | linear (start stop : ℚ × ℚ) (stops : List GradientStop) (tile : TileModeQ)
  | radial (center : ℚ × ℚ) (radius : ℚ) (stops : List GradientStop) (tile : TileModeQ)
  | twoPtConical (start stop : ℚ × ℚ) (startRadius endRadius : ℚ)
      (stops : List GradientStop) (tile : TileModeQ)
deriving Repr, DecidableEq

/-- What `setPaintPattern` wrote into the paint. -/
inductive PaintContent where
  | color (c : PaintColor)
  | shader (s : ShaderDesc)
deriving Repr, DecidableEq

/-- `Path.gradientPoint`: a document-space fractional endpoint mapped
into bounding-box space, `bounds.origin + bounds.size * fraction`. -/
def gradientPoint (bounds : RectQ) (x y : ℚ) : ℚ × ℚ :=
  (bounds.x + bounds.width * x, bounds.y + bounds.height * y)

/-- `Path.gradientRadius`: the fractional radius scaled by the average
of the bounding box's width and height. -/
def gradientRadius (bounds : RectQ) (r : ℚ) : ℚ :=
  ((bounds.width + bounds.height) / 2) * r

/-- `Path.setPaintPattern`: plain colors become solid paint; gradients
in `userSpaceOnUse` space fail (or degrade to solid black when
`ignoreUnsupported`); supported gradients become a linear, radial or
two-point-conical shader with endpoints mapped through
`gradientPoint`. -/
def setPaintPattern (ignoreUnsupported : Bool) (bounds : RectQ)
    (pattern : SvgPattern) (opacity : ℚ) : Except String PaintContent :=
  match pattern with
  | .plain r g b a => .ok (.color (.plain r g b a opacity))
  | .gradient grad =>
    if grad.units = .userSpaceOnUse then
      if ignoreUnsupported then .ok (.color .black)
      else .error "gradientUnits=\"userSpaceOnUse\" not supported"
    else
      match grad.direction with
      | .linear x1 y1 x2 y2 =>
        .ok (.shader (.linear (gradientPoint bounds x1 y1)
          (gradientPoint bounds x2 y2) grad.stops grad.spread))
      | .radial cx cy fx fy r fr =>
        if cx = fx ∧ cy = fy then
          .ok (.shader (.radial (gradientPoint bounds cx cy)
            (gradientRadius bounds r) grad.stops grad.spread))
        else
          .ok (.shader (.twoPtConical (gradientPoint bounds fx fy)
            (gradientPoint bounds cx cy) (gradientRadius bounds fr)
            (gradientRadius bounds r) grad.stops grad.spread))

/-! ## Selection invariant lemmas -/

theorem clampTriple_valid (length s e a : Int) (hlen : 0 ≤ length) :
    0 ≤ (clampTriple length s e a).1 ∧
      (clampTriple length s e a).1 ≤ (clampTriple length s e a).2.1 ∧
      (clampTriple length s e a).2.1 ≤ length ∧
      (clampTriple length s e a).1 ≤ (clampTriple length s e a).2.2 ∧
      (clampTriple length s e a).2.2 ≤ (clampTriple length s e a).2.1 := by
  simp only [clampTriple]
  split_ifs <;> omega

theorem clampTriple_of_valid (length s e a : Int)
    (h1 : 0 ≤ s) (h2 : s ≤ e) (h3 : e ≤ length) (h4 : s ≤ a) (h5 : a ≤ e) :
    clampTriple length s e a = (s, e, a) := by
  simp only [clampTriple]
  split_ifs <;> first | rfl | omega

/-- `setSelection` always stores the clamped triple (the "unchanged"
early-out stores it trivially). -/
theorem setSelection_eq (f : Field) (s e a : Int) :
    f.setSelection s e a =
      { f with selectionStart := (clampTriple f.runes.length s e a).1,
               selectionEnd := (clampTriple f.runes.length s e a).2.1,
               selectionAnchor := (clampTriple f.runes.length s e a).2.2 } := by
  simp only [Field.setSelection]
  split
  · next hg => cases f; simp_all
  · rfl

/-- `setSelection` is the identity on a field already storing the
clamped triple. -/
theorem setSelection_of_eq (g : Field) (s e a : Int)
    (h : g.selectionStart = (clampTriple g.runes.length s e a).1 ∧
         g.selectionEnd = (clampTriple g.runes.length s e a).2.1 ∧
         g.selectionAnchor = (clampTriple g.runes.length s e a).2.2) :
    g.setSelection s e a = g := by
  simp only [Field.setSelection]
  rw [if_pos h]

theorem setSelection_selValid (f : Field) (s e a : Int) :
    SelValid (f.setSelection s e a) := by
  have h := clampTriple_valid (f.runes.length) s e a (Int.natCast_nonneg _)
  rw [setSelection_eq]
  exact ⟨h.1, h.2.1, h.2.2.1, h.2.2.2.1, h.2.2.2.2⟩

theorem setSelection_runes (f : Field) (s e a : Int) :
    (f.setSelection s e a).runes = f.runes := by
  rw [setSelection_eq]

theorem setSelection_multiLine (f : Field) (s e a : Int) :
    (f.setSelection s e a).multiLine = f.multiLine := by
  rw [setSelection_eq]

/-- A field whose stored selection already satisfies the invariant is
untouched by re-setting the same selection. -/
theorem setSelection_self (f : Field) (h : SelValid f) :
    f.setSelection f.selectionStart f.selectionEnd f.selectionAnchor = f := by
  obtain ⟨h1, h2, h3, h4, h5⟩ := h
  rw [setSelection_eq, clampTriple_of_valid _ _ _ _ h1 h2 h3 h4 h5]

theorem setSelection_idem (f : Field) (s e a : Int) :
    (f.setSelection s e a).setSelection s e a = f.setSelection s e a := by
  apply setSelection_of_eq
  rw [setSelection_eq f s e a]
  exact ⟨rfl, rfl, rfl⟩

/-- Every mutation operation re-establishes the selection invariant
`0 ≤ start ≤ end ≤ len(runes) ∧ start ≤ anchor ≤ end`. -/
theorem mutation_selValid (m : Mutation) (f : Field) (h : SelValid f) :
    SelValid (applyMutation m f) := by
  cases m with
  | runeTyped ch =>
    simp only [applyMutation, Field.defaultRuneTyped, Field.setSelectionTo,
      Field.setSelectionPublic]
    split_ifs <;> first | exact h | apply setSelection_selValid
  | backspace =>
    simp only [applyMutation, Field.delete, Field.setSelectionTo,
      Field.setSelectionPublic]
    split_ifs <;> first | exact h | apply setSelection_selValid
  | keyDelete =>
    simp only [applyMutation, Field.keyDeleteForward, Field.delete,
      Field.setSelectionTo, Field.setSelectionPublic]
    split_ifs with hr hcd hs
    · apply setSelection_selValid
    · exact h
    · -- forward delete at the caret: the buffer loses the rune after the
      -- caret and the (unchanged) selection stays in bounds
      obtain ⟨h1, h2, h3, h4, h5⟩ := h
      simp only [Field.hasSelectionRange, decide_eq_true_eq] at hr
      refine ⟨h1, h2, ?_, h4, h5⟩
      simp only [List.length_append, List.length_take, List.length_drop]
      omega
    · exact h
  | paste clip =>
    simp only [applyMutation, Field.paste, Field.delete, Field.setSelectionTo,
      Field.setSelectionPublic]
    split_ifs <;> first | exact h | apply setSelection_selValid
  | cut =>
    simp only [applyMutation, Field.cut, Field.delete, Field.setSelectionTo,
      Field.setSelectionPublic]
    split_ifs <;> first | exact h | apply setSelection_selValid
  | setText text =>
    simp only [applyMutation, Field.setText, Field.setSelectionToEnd,
      Field.setSelectionPublic]
    split_ifs <;> first | exact h | apply setSelection_selValid
  | applyState st =>
    simp only [applyMutation, Field.applyFieldState]
    split_ifs <;> apply setSelection_selValid
  | selChange s e a => apply setSelection_selValid
  | selectAll =>
    simp only [applyMutation, Field.selectAll, Field.setSelectionPublic]
    apply setSelection_selValid

/-! ## Sanitization invariant lemmas -/

theorem sanitize_congr (f g : Field) (h : f.multiLine = g.multiLine)
    (xs : List Char) : f.sanitize xs = g.sanitize xs := by
  simp only [Field.sanitize, h]

theorem mem_sanitize (f : Field) (hm : f.multiLine = false) {c : Char}
    {xs : List Char} (h : c ∈ f.sanitize xs) : c ≠ '\n' ∧ c ≠ '\r' := by
  simp only [Field.sanitize, hm, Bool.false_eq_true, if_false] at h
  have := (List.mem_filter.mp h).2
  simpa using this

theorem sanitized_iff_mem (f : Field) :
    Sanitized f ↔ (f.multiLine = false → ∀ c ∈ f.runes, c ≠ '\n' ∧ c ≠ '\r') := by
  simp only [Sanitized, Field.sanitize]
  by_cases hm : f.multiLine
  · simp [hm]
  · simp only [hm, Bool.false_eq_true, if_false, false_implies, true_implies,
      eq_self_iff_true, forall_true_left]
    rw [List.filter_eq_self]
    simp

theorem sanitized_setSelection (f : Field) (s e a : Int) (h : Sanitized f) :
    Sanitized (f.setSelection s e a) := by
  rw [sanitized_iff_mem] at h ⊢
  rw [setSelection_runes, setSelection_multiLine]
  exact h

/-- No mutation flips the single/multi-line mode of the field. -/
theorem mutation_multiLine (m : Mutation) (f : Field) :
    (applyMutation m f).multiLine = f.multiLine := by
  cases m <;>
    simp only [applyMutation, Field.defaultRuneTyped, Field.delete, Field.keyDeleteForward,
      Field.paste, Field.cut, Field.setText, Field.applyFieldState, Field.selectAll,
      Field.setSelectionTo, Field.setSelectionToEnd, Field.setSelectionPublic] <;>
    (try split_ifs) <;>
    simp [setSelection_multiLine]

/-- Replacing the span `[n, m)` of a list by `mid` contributes only
elements of the original list or of `mid`. -/
theorem mem_spliceSegment {l mid : List Char} {n m : Nat} {x : Char}
    (hx : x ∈ l.take n ++ mid ++ l.drop m) : x ∈ l ∨ x ∈ mid := by
  rcases List.mem_append.mp hx with hx | hx
  · rcases List.mem_append.mp hx with hx | hx
    · exact Or.inl (List.take_subset _ _ hx)
    · exact Or.inr hx
  · exact Or.inl (List.drop_subset _ _ hx)

/-- Deleting the span `[n, m)` of a list contributes only elements of
the original list. -/
theorem mem_dropSegment {l : List Char} {n m : Nat} {x : Char}
    (hx : x ∈ l.take n ++ l.drop m) : x ∈ l := by
  rcases List.mem_append.mp hx with hx | hx
  · exact List.take_subset _ _ hx
  · exact List.drop_subset _ _ hx

theorem applyFieldState_runes (f : Field) (st : FieldState) :
    (f.applyFieldState st).runes = f.sanitize st.Text := by
  simp only [Field.applyFieldState]
  split_ifs with h
  · rw [setSelection_runes]; exact h.symm
  · rw [setSelection_runes]

/-- Every mutation operation keeps a single-line buffer free of `'\n'`
and `'\r'` (rune input rejects control runes, paste/set-text/apply-state
sanitize, deletions keep sublists). -/
theorem mutation_sanitized (m : Mutation) (f : Field) (h : Sanitized f) :
    Sanitized (applyMutation m f) := by
  have hml := mutation_multiLine m f
  rw [sanitized_iff_mem] at h ⊢
  rw [hml]
  intro hm
  have hmem := h hm
  cases m with
  | runeTyped ch =>
    intro c hc
    simp only [applyMutation, Field.defaultRuneTyped, Field.setSelectionTo,
      Field.setSelectionPublic] at hc
    split_ifs at hc with hrej hrange
    · exact hmem c hc
    all_goals
      rw [setSelection_runes] at hc
      have hch : c = ch → c ≠ '\n' ∧ c ≠ '\r' := by
        intro hcc
        subst hcc
        simp only [hm, Bool.not_false, Bool.true_or, Bool.and_true,
          Bool.not_eq_true] at hrej
        constructor <;> rintro rfl <;> revert hrej <;> decide
    · rcases mem_spliceSegment hc with hc | hc
      · exact hmem c (mem_dropSegment hc)
      · exact hch (List.mem_singleton.mp hc)
    · rcases mem_spliceSegment hc with hc | hc
      · exact hmem c hc
      · exact hch (List.mem_singleton.mp hc)
  | backspace =>
    intro c hc
    simp only [applyMutation, Field.delete, Field.setSelectionTo,
      Field.setSelectionPublic] at hc
    split_ifs at hc
    · rw [setSelection_runes] at hc
      exact hmem c (mem_dropSegment hc)
    · rw [setSelection_runes] at hc
      exact hmem c (mem_dropSegment hc)
    · exact hmem c hc
  | keyDelete =>
    intro c hc
    simp only [applyMutation, Field.keyDeleteForward, Field.delete,
      Field.setSelectionTo, Field.setSelectionPublic] at hc
    split_ifs at hc
    · rw [setSelection_runes] at hc
      exact hmem c (mem_dropSegment hc)
    · exact hmem c hc
    · exact hmem c (mem_dropSegment hc)
    · exact hmem c hc
  | paste clip =>
    intro c hc
    simp only [applyMutation, Field.paste, Field.delete, Field.setSelectionTo,
      Field.setSelectionPublic] at hc
    split_ifs at hc
    · rw [setSelection_runes] at hc
      rcases mem_spliceSegment hc with hc | hc
      · exact hmem c (mem_dropSegment hc)
      · exact mem_sanitize f hm hc
    · rw [setSelection_runes] at hc
      rcases mem_spliceSegment hc with hc | hc
      · exact hmem c hc
      · exact mem_sanitize f hm hc
    · rw [setSelection_runes] at hc
      exact hmem c (mem_dropSegment hc)
    · exact hmem c hc
    · exact hmem c hc
  | cut =>
    intro c hc
    simp only [applyMutation, Field.cut, Field.delete, Field.setSelectionTo,
      Field.setSelectionPublic] at hc
    split_ifs at hc
    · rw [setSelection_runes] at hc
      exact hmem c (mem_dropSegment hc)
    · exact hmem c hc
    · exact hmem c hc
  | setText text =>
    intro c hc
    simp only [applyMutation, Field.setText, Field.setSelectionToEnd,
      Field.setSelectionPublic] at hc
    split_ifs at hc
    · rw [setSelection_runes] at hc
      exact mem_sanitize f hm hc
    · exact hmem c hc
  | applyState st =>
    intro c hc
    simp only [applyMutation] at hc
    rw [applyFieldState_runes] at hc
    exact mem_sanitize f hm hc
  | selChange s e a =>
    intro c hc
    simp only [applyMutation] at hc
    rw [setSelection_runes] at hc
    exact hmem c hc
  | selectAll =>
    intro c hc
    simp only [applyMutation, Field.selectAll, Field.setSelectionPublic] at hc
    rw [setSelection_runes] at hc
    exact hmem c hc

/-- Both state invariants hold at every reachable field state. -/
theorem reachable_invariant {f : Field} (h : Reachable f) :
    SelValid f ∧ Sanitized f := by
  induction h with
  | base multiLine =>
    constructor
    · simp [SelValid, newFieldModel]
    · simp only [Sanitized, newFieldModel, Field.sanitize]
      split <;> rfl
  | step m hf ih => exact ⟨mutation_selValid m _ ih.1, mutation_sanitized m _ ih.2⟩

theorem applyFieldState_of_fixed (g : Field) (st : FieldState)
    (hg : g.sanitize st.Text = g.runes) :
    g.applyFieldState st =
      g.setSelection st.SelectionStart st.SelectionEnd st.SelectionAnchor := by
  simp only [Field.applyFieldState, hg, ite_true, eq_self_iff_true]

theorem applyFieldState_idem (f : Field) (st : FieldState) :
    (f.applyFieldState st).applyFieldState st = f.applyFieldState st := by
  have hml : (f.applyFieldState st).multiLine = f.multiLine :=
    mutation_multiLine (.applyState st) f
  have hsan : (f.applyFieldState st).sanitize st.Text = (f.applyFieldState st).runes := by
    rw [sanitize_congr _ f hml, applyFieldState_runes]
  rw [applyFieldState_of_fixed _ st hsan]
  simp only [Field.applyFieldState]
  split
  · exact setSelection_idem f _ _ _
  · exact setSelection_idem _ _ _ _

/-! ## Dock packer lemmas -/

theorem shrinkLoop_length (minW : ℚ) (current : Int) (ws : List ℚ) (rem : ℚ) :
    (shrinkLoop minW current ws rem).1.length = ws.length := by
  induction ws, rem using shrinkLoop.induct minW current with
  | case1 ws rem h0 hf =>
    rw [shrinkLoop]
    simp [h0, hf]
  | case2 ws rem h0 hf perTab r hcond ih =>
    rw [shrinkLoop]
    simp only [dif_pos h0, dif_neg hf, dif_pos hcond]
    exact ih.trans (shrinkPass_length minW perTab current ws 0 rem false)
  | case3 ws rem h0 hf perTab r hcond =>
    rw [shrinkLoop]
    simp only [dif_pos h0, dif_neg hf, dif_neg hcond]
    exact shrinkPass_length minW perTab current ws 0 rem false
  | case4 ws rem h0 =>
    rw [shrinkLoop]
    simp [h0]

theorem shrinkLoop_min_le (minW : ℚ) (current : Int) (ws : List ℚ) (rem : ℚ) :
    (∀ w ∈ ws, minW ≤ w) → ∀ w ∈ (shrinkLoop minW current ws rem).1, minW ≤ w := by
  induction ws, rem using shrinkLoop.induct minW current with
  | case1 ws rem h0 hf =>
    intro h
    rw [shrinkLoop]
    simpa [h0, hf] using h
  | case2 ws rem h0 hf perTab r hcond ih =>
    intro h
    rw [shrinkLoop]
    simp only [dif_pos h0, dif_neg hf, dif_pos hcond]
    exact ih (shrinkPass_min_le minW perTab current ws 0 rem false h)
  | case3 ws rem h0 hf perTab r hcond =>
    intro h
    rw [shrinkLoop]
    simp only [dif_pos h0, dif_neg hf, dif_neg hcond]
    exact shrinkPass_min_le minW perTab current ws 0 rem false h
  | case4 ws rem h0 =>
    intro h
    rw [shrinkLoop]
    simpa [h0] using h

theorem hideLoop_ne_current (ovW : Nat → ℚ) (gap : ℚ) (current : Int) (tabW : List ℚ) :
    ∀ (idxs hidden : List Nat) (curOvW rem : ℚ),
      (∀ j ∈ hidden, (j : Int) ≠ current) →
      ∀ j ∈ (hideLoop ovW gap current tabW idxs hidden curOvW rem).1,
        (j : Int) ≠ current := by
  intro idxs
  induction idxs with
  | nil =>
    intro hidden curOvW rem h j hj
    simp only [hideLoop] at hj
    exact h j hj
  | cons i rest ih =>
    intro hidden curOvW rem h j hj
    simp only [hideLoop] at hj
    split_ifs at hj with h1 h2
    · exact ih hidden curOvW rem h j hj
    · refine ih _ _ _ ?_ j hj
      intro k hk
      rcases List.mem_append.mp hk with hk | hk
      · exact h k hk
      · rw [List.mem_singleton.mp hk]
        exact h2
    · exact h j hj

theorem hideLoop_hidden_ok (ovW : Nat → ℚ) (gap : ℚ) (current : Int) (tabW : List ℚ) :
    ∀ (idxs hidden : List Nat) (curOvW rem : ℚ),
      hidden.Nodup → (∀ j ∈ idxs, j ∉ hidden) → idxs.Nodup →
      (∀ j ∈ (hideLoop ovW gap current tabW idxs hidden curOvW rem).1,
          j ∈ hidden ∨ j ∈ idxs) ∧
        (hideLoop ovW gap current tabW idxs hidden curOvW rem).1.Nodup := by
  intro idxs
  induction idxs with
  | nil =>
    intro hidden curOvW rem h1 h2 h3
    simp only [hideLoop]
    exact ⟨fun j hj => Or.inl hj, h1⟩
  | cons i rest ih =>
    intro hidden curOvW rem h1 h2 h3
    simp only [hideLoop]
    split_ifs with hrem hcur
    · obtain ⟨ha, hb⟩ := ih hidden curOvW rem h1
        (fun j hj => h2 j (List.mem_cons_of_mem i hj)) (List.Nodup.of_cons h3)
      refine ⟨fun j hj => ?_, hb⟩
      rcases ha j hj with hj | hj
      · exact Or.inl hj
      · exact Or.inr (List.mem_cons_of_mem i hj)
    · have hinotrest : i ∉ rest := (List.nodup_cons.mp h3).1
      have hinothidden : i ∉ hidden := h2 i (List.mem_cons_self i rest)
      have hnodup2 : (hidden ++ [i]).Nodup := by
        rw [List.nodup_append]
        refine ⟨h1, List.nodup_singleton i, fun a ha hb => ?_⟩
        rw [List.mem_singleton.mp hb] at ha
        exact hinothidden ha
      have hdisj2 : ∀ j ∈ rest, j ∉ hidden ++ [i] := by
        intro j hj hmem
        rcases List.mem_append.mp hmem with hmem | hmem
        · exact h2 j (List.mem_cons_of_mem i hj) hmem
        · rw [List.mem_singleton.mp hmem] at hj
          exact hinotrest hj
      obtain ⟨ha, hb⟩ := ih (hidden ++ [i]) _ _ hnodup2 hdisj2 (List.Nodup.of_cons h3)
      refine ⟨fun j hj => ?_, hb⟩
      rcases ha j hj with hj | hj
      · rcases List.mem_append.mp hj with hj | hj
        · exact Or.inl hj
        · exact Or.inr (by rw [List.mem_singleton.mp hj]; exact List.mem_cons_self i rest)
      · exact Or.inr (List.mem_cons_of_mem i hj)
    · exact ⟨fun j hj => Or.inl hj, h1⟩

/-! ## Concrete scenarios used by claims and witnesses -/

/-- The multi-line buffer `"ab\ncd"` with the caret at the origin. -/
def fieldAbLfCd : Field :=
  { runes := ['a', 'b', '\n', 'c', 'd'], selectionStart := 0, selectionEnd := 0,
    selectionAnchor := 0, multiLine := true }

/-- Three tabs of preferred width 100, minimum tab width 50, 220 of
content width available to the tabs (zero-width buttons and gaps). -/
def dockInput220 : DockLayoutInput :=
  { contentWidth := 220, tabPrefWidths := [100, 100, 100],
    otherButtonWidths := [], overflowWidth0 := 0, overflowWidth := fun _ => 0,
    current := 0, minTabWidth := 50, tabGap := 0 }

/-- A gradient declared in `userSpaceOnUse` coordinates. -/
def gradUserSpace : SvgGradient :=
  { units := .userSpaceOnUse, direction := .linear 0 0 1 1, stops := [],
    spread := .clamp }

/-- A single-line field holding `"abc"` with `[0, 2)` selected. -/
def fEmptyPasteDemo : Field :=
  { runes := ['a', 'b', 'c'], selectionStart := 0, selectionEnd := 2,
    selectionAnchor := 0, multiLine := false }

/-! ## The claims -/

/-- Claim C1: every mutation operation of the `Field` (rune typed,
delete, backspace, paste, cut, `SetText`, `ApplyFieldState`,
mouse/keyboard selection changes) leaves a selection satisfying
`0 ≤ selectionStart ≤ selectionEnd ≤ len(runes)` and
`selectionStart ≤ selectionAnchor ≤ selectionEnd`. -/
theorem mutation_preserves_selection_invariant (m : Mutation) (f : Field)
    (h : SelValid f) : SelValid (applyMutation m f) :=
  mutation_selValid m f h

theorem mutation_preserves_selection_invariant_witness :
    SelValid (newFieldModel false) ∧
      SelValid (applyMutation (Mutation.runeTyped 'a') (newFieldModel false)) :=
  ⟨by decide, mutation_preserves_selection_invariant (Mutation.runeTyped 'a')
    (newFieldModel false) (by decide)⟩

/-- Claim C2: on every reachable field state, `ApplyFieldState` of the
state returned by `GetFieldState` leaves the rune buffer and the
selection triple unchanged, and applying any state twice gives the same
result as applying it once. -/
theorem apply_get_field_state_roundtrip :
    ∀ f : Field, Reachable f →
      f.applyFieldState f.getFieldState = f ∧
      ∀ st : FieldState,
        (f.applyFieldState st).applyFieldState st = f.applyFieldState st := by
  intro f h
  obtain ⟨hv, hs⟩ := reachable_invariant h
  refine ⟨?_, fun st => applyFieldState_idem f st⟩
  rw [applyFieldState_of_fixed f f.getFieldState hs]
  exact setSelection_self f hv

theorem apply_get_field_state_roundtrip_witness :
    (newFieldModel false).applyFieldState (newFieldModel false).getFieldState =
      newFieldModel false :=
  (apply_get_field_state_roundtrip (newFieldModel false) (Reachable.base false)).1

/-- Claim C3, counterexample: `Paste` does not strip all control
characters.  Pasting `"a\x01b"` into an empty single-line field leaves
the control character `U+0001` in the buffer (only `'\n'` and `'\r'`
are stripped), while `U+0001` is in Unicode category `Cc` and is not a
newline. -/
theorem paste_control_character_counterexample :
    ((newFieldModel false).paste ['a', '\x01', 'b']).runes = ['a', '\x01', 'b'] ∧
      goIsControl '\x01' = true ∧ ('\x01' : Char) ≠ '\n' ∧ ('\x01' : Char) ≠ '\r' := by
  decide

/-- Claim C3 (amended): `Paste` sanitizes rather than rejects: in a
single-line field exactly the newline characters `'\n'` and `'\r'` are
stripped (other control characters pass through); a multi-line field
takes the input unchanged.  In particular pasting `"a\nb"` into a
single-line field contributes `"ab"`, and into a multi-line field
`"a\nb"` unchanged. -/
theorem paste_sanitizes_newlines_only :
    (∀ (f : Field) (xs : List Char),
        (f.multiLine = true → f.sanitize xs = xs) ∧
        (f.multiLine = false →
          f.sanitize xs = xs.filter (fun ch => ch ≠ '\n' && ch ≠ '\r'))) ∧
      ((newFieldModel false).paste ['a', '\n', 'b']).runes = ['a', 'b'] ∧
      ((newFieldModel true).paste ['a', '\n', 'b']).runes = ['a', '\n', 'b'] := by
  refine ⟨fun f xs => ⟨fun hm => ?_, fun hm => ?_⟩, by decide, by decide⟩
  · simp [Field.sanitize, hm]
  · simp [Field.sanitize, hm]

theorem paste_sanitizes_newlines_only_witness :
    (newFieldModel false).sanitize ['a', '\n', 'b'] =
      ['a', '\n', 'b'].filter (fun ch => ch ≠ '\n' && ch ≠ '\r') :=
  (paste_sanitizes_newlines_only.1 (newFieldModel false) ['a', '\n', 'b']).2 rfl

/-- Claim C4, counterexample: on the multi-line buffer `"ab\ncd"` laid
out without wrapping, `findPrevLineBreak(4)` returns 2 — the index of
the `'\n'` itself — not 3. -/
theorem find_prev_line_break_counterexample :
    fieldAbLfCd.findPrevLineBreak 4 = 2 ∧ (2 : Int) ≠ 3 := by decide

/-- Claim C4 (amended): on the multi-line buffer `"ab\ncd"` laid out
without wrapping, `findNextLineBreak(0)` returns 2 (the position of the
`'\n'`) and `findPrevLineBreak(4)` also returns 2, the position of the
`'\n'` (its caller `handleHome` increments a non-zero result to land
just after the break). -/
theorem line_break_scans_ab_lf_cd :
    fieldAbLfCd.findNextLineBreak 0 = 2 ∧ fieldAbLfCd.findPrevLineBreak 4 = 2 := by
  decide

theorem fatCount_eval_220 : fatCountFrom 50 0 0 [100, 100, 100] = 2 := by
  norm_num [fatCountFrom]

theorem shrinkPass_eval_220 :
    shrinkPass 50 40 0 [100, 100, 100] 0 80 false = ([100, 60, 60], 0, true) := by
  norm_num [shrinkPass]

theorem shrinkLoop_eval_220 : shrinkLoop 50 0 [100, 100, 100] 80 = ([100, 60, 60], 0) := by
  have hm : max ((80 : ℚ) / 2) 1 = 40 := by
    rw [max_eq_left] <;> norm_num
  rw [shrinkLoop]
  norm_num [fatCount_eval_220, hm, shrinkPass_eval_220]

/-- The dock packer's output on the 3×100-tab, width-220 scenario: the
shrink loop stops at widths `[100, 60, 60]` and nothing is hidden. -/
theorem packTabs_eval_220 :
    packTabs dockInput220 =
      { tabWidths := [100, 60, 60], hidden := [], overflowVisible := false,
        overflowLabel := none } := by
  have hmax : max (100 : ℚ) 50 = 100 := by
    rw [max_eq_left] <;> norm_num
  simp only [packTabs, dockInput220]
  norm_num [hmax, shrinkLoop_eval_220]

/-- Claim C5, counterexample: packing 3 tabs of preferred width 100
(minimum 50) into 220 of available width hides no tab at all and leaves
the overflow button hidden — the shrink pass already makes the tabs
fit. -/
theorem dock_packer_220_counterexample :
    (packTabs dockInput220).hidden = [] ∧
      (packTabs dockInput220).overflowVisible = false := by
  rw [packTabs_eval_220]
  exact ⟨rfl, rfl⟩

/-- Claim C5 (amended): with 3 tabs of preferred width 100, minimum tab
width 50 and 220 of available width, the shrink pass alone resolves the
overflow: the two non-current tabs shrink to width 60 (the current tab
keeps 100), no tab is hidden and the overflow button stays hidden. -/
theorem dock_packer_220_shrinks_without_hiding :
    packTabs dockInput220 =
      { tabWidths := [100, 60, 60], hidden := [], overflowVisible := false,
        overflowLabel := none } :=
  packTabs_eval_220

theorem packTabs_hidden_ne_current (inp : DockLayoutInput) :
    ∀ i ∈ (packTabs inp).hidden, (i : Int) ≠ inp.current := by
  simp only [packTabs]
  split_ifs <;> intro i hi <;> dsimp only at hi <;>
    first
      | exact absurd hi (List.not_mem_nil i)
      | exact hideLoop_ne_current _ _ _ _ _ _ _ _
          (fun k hk => absurd hk (List.not_mem_nil k)) i hi

theorem packTabs_hidden_bound (inp : DockLayoutInput) :
    ∀ i ∈ (packTabs inp).hidden, i < inp.tabPrefWidths.length := by
  simp only [packTabs]
  split_ifs <;> intro i hi <;> dsimp only at hi <;>
    first
      | exact absurd hi (List.not_mem_nil i)
      | · rcases (hideLoop_hidden_ok _ _ _ _ _ _ _ _ List.nodup_nil
            (fun k hk => List.not_mem_nil k)
            (List.nodup_reverse.mpr (List.nodup_range _))).1 i hi with hj | hj
          · exact absurd hj (List.not_mem_nil i)
          · rw [List.mem_reverse, List.mem_range, List.length_map] at hj
            exact hj

theorem packTabs_hidden_nodup (inp : DockLayoutInput) :
    (packTabs inp).hidden.Nodup := by
  simp only [packTabs]
  split_ifs <;> dsimp only <;>
    first
      | exact List.nodup_nil
      | exact (hideLoop_hidden_ok _ _ _ _ _ _ _ _ List.nodup_nil
          (fun k hk => List.not_mem_nil k)
          (List.nodup_reverse.mpr (List.nodup_range _))).2

/-- Claim C6: the dock header layout never hides the current tab: the
shrink pass excludes it and the hide loop skips it, so for any input the
hidden partition never contains the current index and (for a valid
current index) the current tab is always visible. -/
theorem dock_packer_never_hides_current_tab :
    ∀ inp : DockLayoutInput,
      (∀ i ∈ (packTabs inp).hidden, (i : Int) ≠ inp.current) ∧
        (0 ≤ inp.current → inp.current.toNat ∉ (packTabs inp).hidden) := by
  intro inp
  refine ⟨packTabs_hidden_ne_current inp, fun hpos hmem => ?_⟩
  exact packTabs_hidden_ne_current inp _ hmem (Int.toNat_of_nonneg hpos)

theorem dock_packer_never_hides_current_tab_witness :
    dockInput220.current.toNat ∉ (packTabs dockInput220).hidden :=
  (dock_packer_never_hides_current_tab dockInput220).2 (by decide)

/-- Claim C7: the dock tab packer is total: for any input its shrink and
hide loops terminate (the packer is a terminating function of its
inputs) and the produced layout is well-formed: one final width per tab,
hidden indices are distinct indices of actual tabs, and no tab is ever
sized below the minimum tab width. -/
theorem dock_packer_totality :
    ∀ inp : DockLayoutInput,
      (packTabs inp).tabWidths.length = inp.tabPrefWidths.length ∧
        (∀ i ∈ (packTabs inp).hidden, i < inp.tabPrefWidths.length) ∧
        (packTabs inp).hidden.Nodup ∧
        (∀ w ∈ (packTabs inp).tabWidths, inp.minTabWidth ≤ w) := by
  intro inp
  refine ⟨?_, packTabs_hidden_bound inp, packTabs_hidden_nodup inp, ?_⟩
  · have hlen0 : (inp.tabPrefWidths.map (fun w => max w inp.minTabWidth)).length =
        inp.tabPrefWidths.length := List.length_map _ _
    have hlen1 : ∀ rem, (shrinkLoop inp.minTabWidth inp.current
        (inp.tabPrefWidths.map (fun w => max w inp.minTabWidth)) rem).1.length =
        inp.tabPrefWidths.length :=
      fun rem => (shrinkLoop_length inp.minTabWidth inp.current _ rem).trans hlen0
    simp only [packTabs]
    split_ifs <;> dsimp only <;>
      first
        | exact hlen0
        | exact hlen1 _
        | · rw [List.length_set]
            exact hlen1 _
  · have hmin0 : ∀ w ∈ inp.tabPrefWidths.map (fun w => max w inp.minTabWidth),
        inp.minTabWidth ≤ w := by
      intro w hw
      obtain ⟨x, _, rfl⟩ := List.mem_map.mp hw
      exact le_max_right _ _
    have hmin1 : ∀ rem, ∀ w ∈ (shrinkLoop inp.minTabWidth inp.current
        (inp.tabPrefWidths.map (fun w => max w inp.minTabWidth)) rem).1,
        inp.minTabWidth ≤ w :=
      fun rem => shrinkLoop_min_le inp.minTabWidth inp.current _ rem hmin0
    simp only [packTabs]
    split_ifs <;> intro w hw <;> dsimp only at hw <;>
      first
        | exact hmin0 w hw
        | exact hmin1 _ w hw
        | · rcases List.mem_or_eq_of_mem_set hw with hw2 | hw2
            · exact hmin1 _ w hw2
            · rw [hw2]
              exact le_max_right _ _

theorem dock_packer_totality_witness :
    (packTabs dockInput220).tabWidths.length = dockInput220.tabPrefWidths.length ∧
      dockInput220.minTabWidth ≤ 100 :=
  ⟨(dock_packer_totality dockInput220).1,
    (dock_packer_totality dockInput220).2.2.2 100
      (by rw [packTabs_eval_220]; exact List.mem_cons_self _ _)⟩

/-- Claim C8: linear gradient endpoints are mapped into bounding-box
space by `bounds.origin + bounds.size * fraction`; for endpoints
`(0,0)-(1,1)` over the box `{x:10, y:10, w:100, h:50}` the produced
linear shader runs from `(10,10)` to `(110,60)`. -/
theorem linear_gradient_endpoint_mapping :
    (∀ bounds : RectQ,
        gradientPoint bounds 0 0 = (bounds.x, bounds.y) ∧
          gradientPoint bounds 1 1 =
            (bounds.x + bounds.width, bounds.y + bounds.height)) ∧
      setPaintPattern false ⟨10, 10, 100, 50⟩
          (.gradient { units := .objectBoundingBox,
                       direction := .linear 0 0 1 1, stops := [],
                       spread := .clamp }) 1 =
        .ok (.shader (.linear (10, 10) (110, 60) [] .clamp)) := by
  refine ⟨fun bounds => ⟨?_, ?_⟩, ?_⟩
  · simp [gradientPoint]
  · simp [gradientPoint]
  · norm_num [setPaintPattern, gradientPoint]
    exact fun h => absurd h (by decide)

/-- Claim C9: a gradient in the `userSpaceOnUse` coordinate space makes
translation fail with an error, unless ignore-unsupported mode is on, in
which case the paint becomes solid black and translation succeeds. -/
theorem user_space_on_use_gradient_rejected :
    ∀ (bounds : RectQ) (g : SvgGradient) (opacity : ℚ),
      g.units = GradientUnits.userSpaceOnUse →
      setPaintPattern false bounds (.gradient g) opacity =
          .error "gradientUnits=\"userSpaceOnUse\" not supported" ∧
        setPaintPattern true bounds (.gradient g) opacity =
          .ok (.color .black) := by
  intro bounds g opacity h
  constructor <;> simp [setPaintPattern, h]

theorem user_space_on_use_gradient_rejected_witness :
    setPaintPattern true ⟨0, 0, 1, 1⟩ (.gradient gradUserSpace) 1 =
      Except.ok (PaintContent.color PaintColor.black) :=
  (user_space_on_use_gradient_rejected ⟨0, 0, 1, 1⟩ gradUserSpace 1 rfl).2

/-- Claim C10: with an empty clipboard, `Paste` deletes the selected
text when a selection range is active (same result as `Delete`, and the
buffer strictly shrinks to the part outside the range), and leaves the
field unchanged when no range is active. -/
theorem paste_empty_clipboard_behavior :
    ∀ f : Field, SelValid f →
      (f.hasSelectionRange = true →
          f.paste [] = f.delete ∧
          (f.paste []).runes =
            f.runes.take f.selectionStart.toNat ++ f.runes.drop f.selectionEnd.toNat ∧
          (f.paste []).runes.length < f.runes.length) ∧
        (f.hasSelectionRange = false → f.paste [] = f) := by
  intro f hv
  obtain ⟨h1, h2, h3, h4, h5⟩ := hv
  constructor
  · intro hr
    have hp : f.paste [] = f.delete := by simp [Field.paste, hr]
    have hrunes : (f.delete).runes =
        f.runes.take f.selectionStart.toNat ++ f.runes.drop f.selectionEnd.toNat := by
      simp [Field.delete, Field.canDelete, hr, Field.setSelectionTo,
        Field.setSelectionPublic, setSelection_runes]
    refine ⟨hp, by rw [hp, hrunes], ?_⟩
    rw [hp, hrunes]
    simp only [Field.hasSelectionRange, decide_eq_true_eq] at hr
    simp only [List.length_append, List.length_take, List.length_drop]
    omega
  · intro hr
    simp [Field.paste, hr]

theorem paste_empty_clipboard_behavior_witness :
    fEmptyPasteDemo.paste [] = fEmptyPasteDemo.delete :=
  ((paste_empty_clipboard_behavior fEmptyPasteDemo (by decide)).1 (by decide)).1

end Unison
